import Mathlib

/-!
# `Eloquent::Commons::CircularBuffer<T, size>` and `Eloquent::EdgeImpulse::Impulse::_argmax`

A shallow embedding of `src/eloquent_edgeimpulse/circular_buffer.h` and of the method
`_argmax` of `src/eloquent_edgeimpulse/impulse.h`.

Conventions of the embedding.

* The template parameter `size` (a `uint16_t`) is an explicit argument `size : Nat`;
  theorems that depend on its range assume `size < 65536`.
* The member array `T values[size]` is a map from indexes to cells.  Cells at an index
  below `size` are the array; an access at an index `≥ size` is an access outside the
  array.  Every access a `push` makes is recorded, in program order, in a log, so that
  index safety can be stated about the very loops that move the data.
* `uint16_t` and `uint32_t` members are natural numbers, reduced modulo `2^16` and
  `2^32` at each assignment the source makes.  Mixed expressions follow the C++
  conversion rules for a target whose `int` has at least 32 bits (the boards the
  library's inference SDK runs on): `uint16_t` operands are promoted to `int`, so
  `size - shift` may be negative (the loop then runs zero times, which is what
  truncated subtraction on `Nat` gives), while an operation with a `uint32_t` operand
  is done modulo `2^32`.
* The pointer argument `U *values` is a map from indexes to elements (`U = T`).
* A call of `push` that accesses a cell outside the arrays has undefined behaviour in
  C++ (on a real target such a write can land on the members declared after `values`).
  `pushDefined` says that every logged access of a call is in bounds, and `push`
  describes the result of a call only when `pushDefined` holds: the statements about
  the result of a `push` are about defined calls, and `reach` stops at the first call
  that is not defined.  For a call that is not defined, the log and the loops are used
  only to show where its accesses go.
-/

namespace Eloquent.Commons

/-- Number of values of a `uint16_t`. -/
def U16 : Nat := 65536

/-- Number of values of a `uint32_t`. -/
def U32 : Nat := 4294967296

/-- One array access made by `push`: a read or write of the member array `this->values`
(`readStorage`, `writeStorage`) or a read of the argument array (`readValues`). -/
inductive Access where
  | readStorage (i : Nat)
  | writeStorage (i : Nat)
  | readValues (i : Nat)
  deriving DecidableEq

/-- The members of `CircularBuffer<T, size>`, in the order the class declares them. -/
structure CircularBuffer (T : Type) where
  values : Nat → T
  _i : Nat
  _batchSize : Nat
  _batchCount : Nat
  _count : Nat

/-- The assignment `m[i] = v`. -/
def store {T : Type} (m : Nat → T) (i : Nat) (v : T) : Nat → T :=
  fun j => if j = i then v else m j

/-- The loop `for (i = 0; i < n; i++) body`: iterations `0, …, n-1`, in that order. -/
def forLoop {σ : Type} : Nat → (Nat → σ → σ) → σ → σ
  | 0, _, s => s
  | n + 1, body, s => body n (forLoop n body s)

/-- The member array during a `push`, with the log of the accesses made so far. -/
structure Run (T : Type) where
  values : Nat → T
  log : List Access

/-- Body of the loop of line 80: `this->values[i + _count] = values[i]`
(`i + _count` is computed as a `uint32_t`). -/
def appendStep {T : Type} (src : Nat → T) (count : Nat) (i : Nat) (r : Run T) : Run T :=
  { values := store r.values ((i + count) % U32) (src i)
    log := r.log ++ [Access.readValues i, Access.writeStorage ((i + count) % U32)] }

/-- Body of the loop of line 88: `this->values[i] = this->values[i + shift]`. -/
def shiftStep {T : Type} (shift : Nat) (i : Nat) (r : Run T) : Run T :=
  { values := store r.values i (r.values (i + shift))
    log := r.log ++ [Access.readStorage (i + shift), Access.writeStorage i] }

/-- Body of the loop of line 91: `this->values[head + i] = values[i]`. -/
def writeStep {T : Type} (src : Nat → T) (head : Nat) (i : Nat) (r : Run T) : Run T :=
  { values := store r.values (head + i) (src i)
    log := r.log ++ [Access.readValues i, Access.writeStorage (head + i)] }

/-- The data movement of `push(U *values, uint16_t length)` (lines 79 to 93). -/
def pushRun {T : Type} (size : Nat) (s : CircularBuffer T) (src : Nat → T) (length : Nat) :
    Run T :=
  if (s._count + length) % U32 ≤ size then
    forLoop length (appendStep src s._count) ⟨s.values, []⟩
  else
    let shift := (if s._count ≥ size then length else size - s._count) % U16
    let head := (size + U16 - length) % U16
    forLoop length (writeStep src head)
      (forLoop (size - shift) (shiftStep shift) ⟨s.values, []⟩)

/-- Method `bool isFull()`. -/
def isFull {T : Type} (size : Nat) (s : CircularBuffer T) : Bool :=
  decide (s._count ≥ size)

/-- Method `bool testBatch()`: the new state and the returned flag. -/
def testBatch {T : Type} (size : Nat) (s : CircularBuffer T) : CircularBuffer T × Bool :=
  if s._batchCount ≥ s._batchSize then
    ({ s with _batchCount := s._batchCount - s._batchSize }, decide (s._count ≥ size))
  else
    (s, false)

/-- Method `bool push(U *values, uint16_t length)`: the new state and the returned flag of
a call that is defined (`pushDefined`: all its accesses are inside the arrays). The
counters are computed apart from the array, so for a call that writes outside the
array, whose behaviour is undefined in C++, the value of `push` has no meaning. -/
def push {T : Type} (size : Nat) (s : CircularBuffer T) (src : Nat → T) (length : Nat) :
    CircularBuffer T × Bool :=
  testBatch size
    { s with
      values := (pushRun size s src length).values
      _batchCount := (s._batchCount + length) % U16
      _count := (s._count + length) % U32 }

/-- The array accesses of `push(values, length)`, in program order. -/
def pushAccesses {T : Type} (size : Nat) (s : CircularBuffer T) (src : Nat → T)
    (length : Nat) : List Access :=
  (pushRun size s src length).log

/-- Method `bool push(U value)`: a one-element local array holding `value` is pushed with
length 1. -/
def pushValue {T : Type} (size : Nat) (s : CircularBuffer T) (value : T) :
    CircularBuffer T × Bool :=
  push size s (fun _ => value) 1

/-- Method `void clear(bool deep = false)`. -/
def clear {T : Type} [Zero T] (size : Nat) (deep : Bool) (s : CircularBuffer T) :
    CircularBuffer T :=
  let s1 := { s with _i := 0, _count := 0, _batchCount := 0 }
  if deep then
    { s1 with values := forLoop size (fun i m => store m i 0) s1.values }
  else
    s1

/-- Method `void batch(uint16_t batchSize)`. -/
def batch {T : Type} (batchSize : Nat) (s : CircularBuffer T) : CircularBuffer T :=
  { s with _batchSize := if batchSize > 0 then batchSize else 1 }

/-- The constructor `CircularBuffer()`: the counters are initialised, the array is not,
so its initial content `mem` is arbitrary. -/
def CircularBuffer.ctor {T : Type} (mem : Nat → T) : CircularBuffer T :=
  { values := mem, _i := 0, _count := 0, _batchSize := 1, _batchCount := 0 }

/-- The content of the member array: the cells at indexes `0, …, size-1`. -/
def storage {T : Type} (size : Nat) (s : CircularBuffer T) : List T :=
  (List.range size).map s.values

/-- A sequence of calls `push(values, length)`: the final state and the returned flags. -/
def pushSeq {T : Type} (size : Nat) :
    CircularBuffer T → List ((Nat → T) × Nat) → CircularBuffer T × List Bool
  | s, [] => (s, [])
  | s, c :: rest =>
    ((pushSeq size (push size s c.1 c.2).1 rest).1,
      (push size s c.1 c.2).2 :: (pushSeq size (push size s c.1 c.2).1 rest).2)

/-- The elements a sequence of calls pushes, oldest first. -/
def history {T : Type} : List ((Nat → T) × Nat) → List T
  | [] => []
  | c :: rest => (List.range c.2).map c.1 ++ history rest

/-- The total number of elements a sequence of calls pushes. -/
def totalLength {T : Type} : List ((Nat → T) × Nat) → Nat
  | [] => 0
  | c :: rest => c.2 + totalLength rest

/-- The calls `push(v)` for each `v` of a list, as a sequence of calls. -/
def singles {T : Type} (vs : List T) : List ((Nat → T) × Nat) :=
  vs.map (fun v => ((fun _ => v), 1))

/-- Pushing the elements of a list one at a time with `push(value)`. -/
def pushValues {T : Type} (size : Nat) (s : CircularBuffer T) (vs : List T) :
    CircularBuffer T × List Bool :=
  pushSeq size s (singles vs)

/-- An argument array holding the elements of a list (`d` beyond its end). -/
def arr {T : Type} (d : T) (l : List T) : Nat → T :=
  fun i => l.getD i d

/-- Whether an access of a `push(values, length)` stays inside the arrays: an index of the
member array is below `size`, an index of the argument array is below `length`. -/
def Access.inBounds (size length : Nat) : Access → Bool
  | Access.readStorage i => decide (i < size)
  | Access.writeStorage i => decide (i < size)
  | Access.readValues i => decide (i < length)

/-- Whether the call `push(values, length)` is defined in the state `s`: every access it
makes stays inside the arrays. -/
def pushDefined {T : Type} (size : Nat) (s : CircularBuffer T) (src : Nat → T)
    (length : Nat) : Bool :=
  (pushAccesses size s src length).all (Access.inBounds size length)

/-- A call of one of the public mutators. -/
inductive Op (T : Type) where
  | clear (deep : Bool)
  | batch (batchSize : Nat)
  | push (src : Nat → T) (length : Nat)

/-- The effect of one call on the state. -/
def Op.apply {T : Type} [Zero T] (size : Nat) (s : CircularBuffer T) : Op T → CircularBuffer T
  | Op.clear deep => Eloquent.Commons.clear size deep s
  | Op.batch n => Eloquent.Commons.batch n s
  | Op.push src length => (Eloquent.Commons.push size s src length).1

end Eloquent.Commons

namespace Eloquent.EdgeImpulse.Impulse

/-- The loop of `_argmax` (lines 279 to 289) from the index `ix` on. `rest` holds the
scores `result.classification[ix].value`, …, `result.classification[numOutputs-1].value`;
`y` and `proba` are the running `_y` and `proba`. The result is the final `_y`. -/
def argmaxLoop : List ℚ → Nat → Nat → ℚ → Nat
  | [], _, y, _ => y
  | p :: rest, ix, y, proba =>
    let y1 := if p > proba then ix else y
    let proba1 := if p > proba then p else proba
    if proba1 ≥ 1 / 2 then y1 else argmaxLoop rest (ix + 1) y1 proba1

/-- Method `void _argmax()` of `Impulse`: the value it leaves in `_y`, for the class scores
`result.classification[0].value`, …, `result.classification[numOutputs-1].value` given as
a list of exact rationals. `numOutputs` (the constant `EI_CLASSIFIER_LABEL_COUNT` of the
inference SDK) is the length of the list. `_y` is a `float` member that receives the loop
index; the embedding keeps the index itself (a `float` holds every index below `2^24`
exactly). -/
def _argmax (scores : List ℚ) : Nat :=
  argmaxLoop scores.tail 1 0 (scores.headD 0)

end Eloquent.EdgeImpulse.Impulse

namespace Eloquent.Commons

/-! ## The loops -/

section Loops

variable {T : Type}

theorem forLoop_shift_values (sh n : Nat) (r : Run T) (j : Nat) :
    (forLoop n (shiftStep sh) r).values j
      = if j < n then r.values (j + sh) else r.values j := by
  induction n generalizing j with
  | zero => simp [forLoop]
  | succ n ih =>
    simp only [forLoop, shiftStep, store]
    by_cases hj : j = n
    · subst hj
      rw [ih]
      simp
    · rw [if_neg hj, ih]
      by_cases h1 : j < n
      · simp [h1, Nat.lt_succ_of_lt h1]
      · have h2 : ¬ j < n + 1 := by omega
        simp [h1, h2]

theorem forLoop_write_values (src : Nat → T) (head n : Nat) (r : Run T) (j : Nat) :
    (forLoop n (writeStep src head) r).values j
      = if head ≤ j ∧ j < head + n then src (j - head) else r.values j := by
  induction n with
  | zero =>
    have h0 : ¬ (head ≤ j ∧ j < head) := by omega
    simp only [forLoop, Nat.add_zero, if_neg h0]
  | succ n ih =>
    simp only [forLoop, writeStep, store]
    by_cases hj : j = head + n
    · subst hj
      have h2 : head ≤ head + n ∧ head + n < head + (n + 1) := by omega
      simp [h2]
    · rw [if_neg hj, ih]
      by_cases h1 : head ≤ j ∧ j < head + n
      · have h2 : head ≤ j ∧ j < head + (n + 1) := ⟨h1.1, by omega⟩
        simp [h1, h2]
      · have h2 : ¬ (head ≤ j ∧ j < head + (n + 1)) := by omega
        simp [h1, h2]

theorem forLoop_append_values (src : Nat → T) (count n : Nat) (r : Run T) (j : Nat)
    (h : count + n ≤ U32) :
    (forLoop n (appendStep src count) r).values j
      = if count ≤ j ∧ j < count + n then src (j - count) else r.values j := by
  induction n with
  | zero =>
    have h0 : ¬ (count ≤ j ∧ j < count) := by omega
    simp only [forLoop, Nat.add_zero, if_neg h0]
  | succ n ih =>
    have hm : (n + count) % U32 = n + count := Nat.mod_eq_of_lt (by omega)
    simp only [forLoop, appendStep, store, hm]
    by_cases hj : j = n + count
    · subst hj
      have h2 : count ≤ n + count ∧ n + count < count + (n + 1) := by omega
      simp [h2]
    · rw [if_neg hj, ih (by omega)]
      by_cases h1 : count ≤ j ∧ j < count + n
      · have h2 : count ≤ j ∧ j < count + (n + 1) := ⟨h1.1, by omega⟩
        simp [h1, h2]
      · have h2 : ¬ (count ≤ j ∧ j < count + (n + 1)) := by omega
        simp [h1, h2]

theorem forLoop_zero_values [Zero T] (n : Nat) (m : Nat → T) (j : Nat) :
    forLoop n (fun i m => store m i 0) m j = if j < n then 0 else m j := by
  induction n with
  | zero => simp [forLoop]
  | succ n ih =>
    simp only [forLoop, store]
    by_cases hj : j = n
    · subst hj
      simp
    · rw [if_neg hj, ih]
      by_cases h1 : j < n
      · simp [h1, Nat.lt_succ_of_lt h1]
      · have h2 : ¬ j < n + 1 := by omega
        simp [h1, h2]

end Loops

/-! ## The counters across a `push` -/

section Counters

variable {T : Type}

theorem push_values (size : Nat) (s : CircularBuffer T) (src : Nat → T) (length : Nat) :
    (push size s src length).1.values = (pushRun size s src length).values := by
  unfold push testBatch
  split <;> rfl

theorem push_count (size : Nat) (s : CircularBuffer T) (src : Nat → T) (length : Nat) :
    (push size s src length).1._count = (s._count + length) % U32 := by
  unfold push testBatch
  split <;> rfl

theorem push_batchSize (size : Nat) (s : CircularBuffer T) (src : Nat → T) (length : Nat) :
    (push size s src length).1._batchSize = s._batchSize := by
  unfold push testBatch
  split <;> rfl

theorem push_batchCount (size : Nat) (s : CircularBuffer T) (src : Nat → T) (length : Nat) :
    (push size s src length).1._batchCount
      = if s._batchSize ≤ (s._batchCount + length) % U16
        then (s._batchCount + length) % U16 - s._batchSize
        else (s._batchCount + length) % U16 := by
  unfold push testBatch
  by_cases h : s._batchSize ≤ (s._batchCount + length) % U16
  · simp [h]
  · simp [h]

theorem push_ret (size : Nat) (s : CircularBuffer T) (src : Nat → T) (length : Nat) :
    (push size s src length).2
      = decide (s._batchSize ≤ (s._batchCount + length) % U16
          ∧ size ≤ (s._count + length) % U32) := by
  unfold push testBatch
  by_cases h : s._batchSize ≤ (s._batchCount + length) % U16
  · simp [h]
  · simp [h]

end Counters

/-! ## One `push`: the two branches -/

section Branches

variable {T : Type}

/-- The branch of line 79 (there is room for all items), when no counter wraps. -/
theorem pushRun_append (size : Nat) (s : CircularBuffer T) (src : Nat → T) (length : Nat)
    (hsize : size < U16) (h : s._count + length ≤ size) (j : Nat) :
    (pushRun size s src length).values j
      = if s._count ≤ j ∧ j < s._count + length then src (j - s._count) else s.values j := by
  have hU : s._count + length < U32 := by
    have : U16 ≤ U32 := by decide
    omega
  have hc : (s._count + length) % U32 ≤ size := by
    rw [Nat.mod_eq_of_lt hU]
    exact h
  unfold pushRun
  rw [if_pos hc, forLoop_append_values _ _ _ _ _ (Nat.le_of_lt hU)]

/-- The branch of line 84 on a full buffer, for `1 ≤ length ≤ size`, when no counter
wraps: the window slides by `length`. -/
theorem pushRun_slide (size : Nat) (s : CircularBuffer T) (src : Nat → T) (length : Nat)
    (hsize : size < U16) (hfull : size ≤ s._count) (h1 : 1 ≤ length) (h2 : length ≤ size)
    (hU : s._count + length < U32) (j : Nat) :
    (pushRun size s src length).values j
      = if size - length ≤ j ∧ j < size then src (j - (size - length))
        else if j < size - length then s.values (j + length) else s.values j := by
  have hc : ¬ (s._count + length) % U32 ≤ size := by
    rw [Nat.mod_eq_of_lt hU]
    omega
  have hshift : (if s._count ≥ size then length else size - s._count) % U16 = length := by
    rw [if_pos hfull]
    exact Nat.mod_eq_of_lt (by omega)
  have hhead : (size + U16 - length) % U16 = size - length := by
    have e : size + U16 - length = (size - length) + U16 := by omega
    rw [e, Nat.add_mod_right]
    exact Nat.mod_eq_of_lt (by omega)
  unfold pushRun
  rw [if_neg hc]
  simp only [hshift, hhead]
  rw [forLoop_write_values, forLoop_shift_values]
  have e2 : size - length + length = size := by omega
  rw [e2]

end Branches

/-! ## Sequences of calls -/

section Sequences

variable {T : Type}

theorem pushSeq_append (size : Nat) (s : CircularBuffer T) (a b : List ((Nat → T) × Nat)) :
    pushSeq size s (a ++ b)
      = ((pushSeq size (pushSeq size s a).1 b).1,
          (pushSeq size s a).2 ++ (pushSeq size (pushSeq size s a).1 b).2) := by
  induction a generalizing s with
  | nil => simp [pushSeq]
  | cons c rest ih => simp [pushSeq, ih]

theorem pushSeq_count (size : Nat) (s : CircularBuffer T) (calls : List ((Nat → T) × Nat))
    (hs : s._count < U32) :
    (pushSeq size s calls).1._count = (s._count + totalLength calls) % U32 := by
  induction calls generalizing s with
  | nil =>
    simp only [pushSeq, totalLength, Nat.add_zero]
    exact (Nat.mod_eq_of_lt hs).symm
  | cons c rest ih =>
    simp only [pushSeq, totalLength]
    rw [ih _ (by rw [push_count]; exact Nat.mod_lt _ (by decide)), push_count,
      Nat.mod_add_mod, Nat.add_assoc]

theorem pushSeq_batchSize (size : Nat) (s : CircularBuffer T)
    (calls : List ((Nat → T) × Nat)) :
    (pushSeq size s calls).1._batchSize = s._batchSize := by
  induction calls generalizing s with
  | nil => rfl
  | cons c rest ih =>
    simp only [pushSeq]
    rw [ih, push_batchSize]

theorem totalLength_singles (vs : List T) : totalLength (singles vs) = vs.length := by
  induction vs with
  | nil => rfl
  | cons v rest ih =>
    simp only [singles, List.map_cons, totalLength, List.length_cons] at ih ⊢
    omega

theorem history_singles (vs : List T) : history (singles vs) = vs := by
  induction vs with
  | nil => rfl
  | cons v rest ih =>
    simp only [singles, List.map_cons, history] at ih ⊢
    rw [ih]
    rfl

theorem pushValues_snoc (size : Nat) (s : CircularBuffer T) (l : List T) (a : T) :
    pushValues size s (l ++ [a])
      = ((pushValue size (pushValues size s l).1 a).1,
          (pushValues size s l).2 ++ [(pushValue size (pushValues size s l).1 a).2]) := by
  unfold pushValues singles pushValue
  rw [List.map_append, pushSeq_append]
  rfl

end Sequences

/-! ## Single-element pushes onto a fresh buffer -/

section SinglePushes

variable {T : Type}

/-- After `n < 2^32` single-element pushes onto a fresh buffer the counter is `n` and
the first `min n size` cells hold the last `min n size` pushed elements, in order. -/
theorem pushValues_ctor (size : Nat) (mem : Nat → T) (vs : List T)
    (h1 : 1 ≤ size) (hsize : size < U16) (hn : vs.length < U32) :
    (pushValues size (CircularBuffer.ctor mem) vs).1._count = vs.length
      ∧ ∀ i, i < vs.length → i < size →
          vs[vs.length - size + i]?
            = some ((pushValues size (CircularBuffer.ctor mem) vs).1.values i) := by
  induction vs using List.reverseRecOn with
  | nil =>
    refine ⟨rfl, ?_⟩
    intro i hi
    simp at hi
  | append_singleton l a ih =>
    have hl : l.length < U32 := by
      simp only [List.length_append, List.length_singleton] at hn
      omega
    obtain ⟨hcount, hvals⟩ := ih hl
    rw [pushValues_snoc]
    simp only [List.length_append, List.length_singleton] at hn ⊢
    refine ⟨?_, ?_⟩
    · unfold pushValue
      rw [push_count, hcount]
      exact Nat.mod_eq_of_lt hn
    · intro i hi hisz
      unfold pushValue
      rw [push_values]
      by_cases hfull : size ≤ l.length
      · rw [pushRun_slide size _ _ 1 hsize (by rw [hcount]; exact hfull) (Nat.le_refl 1) h1
          (by rw [hcount]; exact hn)]
        by_cases hlast : i = size - 1
        · have hc : size - 1 ≤ i ∧ i < size := by omega
          rw [if_pos hc]
          have e : l.length + 1 - size + i = l.length := by omega
          rw [e]
          simp
        · have hc : ¬ (size - 1 ≤ i ∧ i < size) := by omega
          have hlt : i < size - 1 := by omega
          rw [if_neg hc, if_pos hlt]
          have e : l.length + 1 - size + i = l.length - size + (i + 1) := by omega
          rw [e, ← hvals (i + 1) (by omega) (by omega)]
          exact List.getElem?_append_left (by omega)
      · rw [pushRun_append size _ _ 1 hsize (by rw [hcount]; omega)]
        rw [hcount]
        have e : l.length + 1 - size + i = i := by omega
        rw [e]
        by_cases hlast : i = l.length
        · have hc : l.length ≤ i ∧ i < l.length + 1 := by omega
          rw [if_pos hc, hlast]
          simp
        · have hc : ¬ (l.length ≤ i ∧ i < l.length + 1) := by omega
          rw [if_neg hc]
          have e2 : l.length - size + i = i := by omega
          have := hvals i (by omega) hisz
          rw [e2] at this
          rw [← this]
          exact List.getElem?_append_left (by omega)

end SinglePushes

/-! ## Counter wrap-around -/

section Wrap

variable {T : Type}

theorem storage_getElem? (size : Nat) (s : CircularBuffer T) (i : Nat) :
    (storage size s)[i]? = if i < size then some (s.values i) else none := by
  unfold storage
  rw [List.getElem?_map]
  by_cases h : i < size
  · rw [List.getElem?_range h, if_pos h]
    rfl
  · rw [if_neg h, List.getElem?_eq_none (by simpa using h)]
    rfl

/-- A one-element push when `_count` is `2^32 - 1`: `_count + length` wraps to `0`, the
branch of line 79 is taken and the element is written at index `2^32 - 1`. -/
theorem pushRun_wrap (size : Nat) (s : CircularBuffer T) (src : Nat → T)
    (hc : s._count = U32 - 1) :
    (pushRun size s src 1).values = store s.values (U32 - 1) (src 0)
      ∧ (pushRun size s src 1).log
          = [Access.readValues 0, Access.writeStorage (U32 - 1)] := by
  have h0 : (s._count + 1) % U32 = 0 := by
    rw [hc]
    decide
  have hi : (0 + s._count) % U32 = U32 - 1 := by
    rw [hc]
    decide
  unfold pushRun
  rw [if_pos (by rw [h0]; exact Nat.zero_le _)]
  constructor <;> simp only [forLoop, appendStep, hi, List.nil_append]

/-- With `size = 1`: after `2^32 - 1` pushes of `0`, a push of `1` does not reach the
array. -/
theorem pushValues_wrap_one (l : List Nat) (hlen : l.length = U32 - 1)
    (hall : ∀ x ∈ l, x = 0) :
    storage 1 (pushValues 1 (CircularBuffer.ctor (fun _ => 0)) (l ++ [1])).1 ≠ [1] := by
  have hl1 : l.length < U32 := by rw [hlen]; decide
  have hl0 : 0 < l.length := by rw [hlen]; decide
  obtain ⟨hcount, hvals⟩ :=
    pushValues_ctor 1 (fun _ => 0) l (by decide) (by decide) hl1
  have h0 := hvals 0 hl0 (by decide)
  have hz : (pushValues 1 (CircularBuffer.ctor (fun _ => 0)) l).1.values 0 = 0 :=
    hall _ (List.getElem?_mem h0)
  intro hEq
  have hcell : (storage 1 (pushValues 1 (CircularBuffer.ctor (fun _ => 0)) (l ++ [1])).1)[0]?
      = some 1 := by
    rw [hEq]
    rfl
  have hc : (pushValues 1 (CircularBuffer.ctor (fun _ => 0)) l).1._count = U32 - 1 := by
    rw [hcount, hlen]
  have hne : ¬ (0 = U32 - 1) := by decide
  rw [storage_getElem?, if_pos (by decide), pushValues_snoc] at hcell
  unfold pushValue at hcell
  rw [push_values, (pushRun_wrap 1 _ _ hc).1] at hcell
  simp only [store] at hcell
  rw [if_neg hne, hz] at hcell
  exact absurd hcell (by decide)

end Wrap

/-! ## The batch detector over a sequence of calls -/

section Detector

variable {T : Type}

end Detector

/-! ## Reachable states -/

section Reachable

variable {T : Type}

end Reachable

/-! ## The access log -/

section Log

variable {T : Type}

theorem forLoop_append_log (P : Access → Prop) (src : Nat → T) (count n : Nat) (r : Run T)
    (h0 : ∀ a ∈ r.log, P a)
    (h : ∀ i, i < n →
      P (Access.readValues i) ∧ P (Access.writeStorage ((i + count) % U32))) :
    ∀ a ∈ (forLoop n (appendStep src count) r).log, P a := by
  induction n with
  | zero => exact h0
  | succ n ih =>
    intro a ha
    simp only [forLoop, appendStep, List.mem_append, List.mem_cons, List.mem_singleton,
      List.not_mem_nil, or_false] at ha
    rcases ha with ha | ha | ha
    · exact ih (fun i hi => h i (Nat.lt_succ_of_lt hi)) a ha
    · rw [ha]
      exact (h n (Nat.lt_succ_self n)).1
    · rw [ha]
      exact (h n (Nat.lt_succ_self n)).2

theorem forLoop_shift_log (P : Access → Prop) (shift n : Nat) (r : Run T)
    (h0 : ∀ a ∈ r.log, P a)
    (h : ∀ i, i < n → P (Access.readStorage (i + shift)) ∧ P (Access.writeStorage i)) :
    ∀ a ∈ (forLoop n (shiftStep shift) r).log, P a := by
  induction n with
  | zero => exact h0
  | succ n ih =>
    intro a ha
    simp only [forLoop, shiftStep, List.mem_append, List.mem_cons, List.mem_singleton,
      List.not_mem_nil, or_false] at ha
    rcases ha with ha | ha | ha
    · exact ih (fun i hi => h i (Nat.lt_succ_of_lt hi)) a ha
    · rw [ha]
      exact (h n (Nat.lt_succ_self n)).1
    · rw [ha]
      exact (h n (Nat.lt_succ_self n)).2

theorem forLoop_write_log (P : Access → Prop) (src : Nat → T) (head n : Nat) (r : Run T)
    (h0 : ∀ a ∈ r.log, P a)
    (h : ∀ i, i < n → P (Access.readValues i) ∧ P (Access.writeStorage (head + i))) :
    ∀ a ∈ (forLoop n (writeStep src head) r).log, P a := by
  induction n with
  | zero => exact h0
  | succ n ih =>
    intro a ha
    simp only [forLoop, writeStep, List.mem_append, List.mem_cons, List.mem_singleton,
      List.not_mem_nil, or_false] at ha
    rcases ha with ha | ha | ha
    · exact ih (fun i hi => h i (Nat.lt_succ_of_lt hi)) a ha
    · rw [ha]
      exact (h n (Nat.lt_succ_self n)).1
    · rw [ha]
      exact (h n (Nat.lt_succ_self n)).2

/-- Index safety within the range of the counter: for `length ≤ size` and
`count + length < 2^32`, every index of the array that a push reads or writes is below
`size` and every index of `values` that it reads is below `length`, in the append branch
and in the shift branch. -/
theorem pushAccesses_inBounds (size : Nat) (s : CircularBuffer T) (src : Nat → T)
    (length : Nat) (hsize : size < U16) (hlen : length ≤ size)
    (hU : s._count + length < U32) :
    ∀ a ∈ pushAccesses size s src length, Access.inBounds size length a = true := by
  have e : (s._count + length) % U32 = s._count + length := Nat.mod_eq_of_lt hU
  unfold pushAccesses pushRun
  by_cases hb : (s._count + length) % U32 ≤ size
  · rw [if_pos hb]
    rw [e] at hb
    apply forLoop_append_log
    · intro a ha
      exact absurd ha (List.not_mem_nil a)
    · intro i hi
      have hi2 : (i + s._count) % U32 = i + s._count := Nat.mod_eq_of_lt (by omega)
      rw [hi2]
      exact ⟨decide_eq_true hi, decide_eq_true (by omega)⟩
  · rw [if_neg hb]
    rw [e] at hb
    have hhead : (size + U16 - length) % U16 = size - length := by
      have e2 : size + U16 - length = (size - length) + U16 := by omega
      rw [e2, Nat.add_mod_right]
      exact Nat.mod_eq_of_lt (by omega)
    have hshift : (if s._count ≥ size then length else size - s._count) % U16
        = (if s._count ≥ size then length else size - s._count) := by
      apply Nat.mod_eq_of_lt
      by_cases hfull : s._count ≥ size
      · rw [if_pos hfull]
        omega
      · rw [if_neg hfull]
        omega
    simp only [hhead, hshift]
    apply forLoop_write_log
    · apply forLoop_shift_log
      · intro a ha
        exact absurd ha (List.not_mem_nil a)
      · intro i hi
        refine ⟨decide_eq_true ?_, decide_eq_true ?_⟩
        · by_cases hfull : s._count ≥ size
          · rw [if_pos hfull] at hi ⊢
            omega
          · rw [if_neg hfull] at hi ⊢
            omega
        · omega
    · intro i hi
      exact ⟨decide_eq_true hi, decide_eq_true (by omega)⟩

/-- A push with `length ≤ size` and `count + length < 2^32` is defined. -/
theorem pushDefined_of_le (size : Nat) (s : CircularBuffer T) (src : Nat → T)
    (length : Nat) (hsize : size < U16) (hlen : length ≤ size)
    (hU : s._count + length < U32) :
    pushDefined size s src length = true := by
  unfold pushDefined
  exact List.all_eq_true.mpr (pushAccesses_inBounds size s src length hsize hlen hU)

end Log

/-! ## Single-element pushes and the batch detector -/

section Cadence

variable {T : Type}

/-- Stepping a residue: `n % b + 1` reaches `b` exactly when `b` divides `n + 1`. -/
theorem succ_mod_step (n b : Nat) (hb : 1 ≤ b) :
    (b ≤ n % b + 1 → (n + 1) % b = 0) ∧ (¬ b ≤ n % b + 1 → (n + 1) % b = n % b + 1) := by
  have hr : n % b < b := Nat.mod_lt n (by omega)
  have hadd : (n + 1) % b = (n % b + 1 % b) % b := Nat.add_mod n 1 b
  refine ⟨?_, ?_⟩
  · intro h
    by_cases h1 : b = 1
    · subst h1
      exact Nat.mod_one _
    · have e1 : 1 % b = 1 := Nat.mod_eq_of_lt (by omega)
      have e2 : n % b + 1 = b := by omega
      rw [hadd, e1, e2, Nat.mod_self]
  · intro h
    have e1 : 1 % b = 1 := Nat.mod_eq_of_lt (by omega)
    rw [hadd, e1]
    exact Nat.mod_eq_of_lt (by omega)

/-- After `n < 2^32` single-element pushes onto a fresh buffer on which the batch size
`b` (`1 ≤ b < 2^16`) was set, the count is `n` and the tally is `n mod b`. -/
theorem pushValues_batch_ctor (size b : Nat) (mem : Nat → T) (vs : List T)
    (hb : 1 ≤ b) (hb16 : b < U16) (hn : vs.length < U32) :
    (pushValues size (batch b (CircularBuffer.ctor mem)) vs).1._count = vs.length
      ∧ (pushValues size (batch b (CircularBuffer.ctor mem)) vs).1._batchCount = vs.length % b
      ∧ (pushValues size (batch b (CircularBuffer.ctor mem)) vs).1._batchSize = b := by
  have hB : (pushValues size (batch b (CircularBuffer.ctor mem)) vs).1._batchSize = b := by
    unfold pushValues
    rw [pushSeq_batchSize]
    show (if b > 0 then b else 1) = b
    rw [if_pos (by omega)]
  have hC : (pushValues size (batch b (CircularBuffer.ctor mem)) vs).1._count = vs.length := by
    unfold pushValues
    rw [pushSeq_count _ _ _ (Nat.zero_lt_succ _), totalLength_singles]
    show (0 + vs.length) % U32 = vs.length
    rw [Nat.zero_add]
    exact Nat.mod_eq_of_lt hn
  refine ⟨hC, ?_, hB⟩
  clear hC hB
  induction vs using List.reverseRecOn with
  | nil =>
    show 0 = 0 % b
    rw [Nat.zero_mod]
  | append_singleton l a ih =>
    simp only [List.length_append, List.length_singleton] at hn ⊢
    have hl := ih (by omega)
    have hBl : (pushValues size (batch b (CircularBuffer.ctor mem)) l).1._batchSize = b := by
      unfold pushValues
      rw [pushSeq_batchSize]
      show (if b > 0 then b else 1) = b
      rw [if_pos (by omega)]
    have hr : l.length % b < b := Nat.mod_lt _ (by omega)
    rw [pushValues_snoc]
    unfold pushValue
    rw [push_batchCount, hl, hBl, Nat.mod_eq_of_lt (by omega)]
    by_cases h : b ≤ l.length % b + 1
    · rw [if_pos h, (succ_mod_step l.length b hb).1 h]
      omega
    · rw [if_neg h, (succ_mod_step l.length b hb).2 h]

end Cadence

/-! ## Calls that are defined -/

section Defined

variable {T : Type}

theorem forLoop_append_log_mem (src : Nat → T) (count n : Nat) (r : Run T) (i : Nat)
    (hi : i < n) :
    Access.writeStorage ((i + count) % U32) ∈ (forLoop n (appendStep src count) r).log := by
  induction n with
  | zero => exact absurd hi (Nat.not_lt_zero i)
  | succ n ih =>
    simp only [forLoop, appendStep, List.mem_append, List.mem_cons, List.mem_singleton,
      List.not_mem_nil, or_false]
    by_cases h : i = n
    · rw [h]
      exact Or.inr (Or.inr rfl)
    · exact Or.inl (ih (by omega))

theorem forLoop_write_log_mem (src : Nat → T) (head n : Nat) (r : Run T) (i : Nat)
    (hi : i < n) :
    Access.writeStorage (head + i) ∈ (forLoop n (writeStep src head) r).log := by
  induction n with
  | zero => exact absurd hi (Nat.not_lt_zero i)
  | succ n ih =>
    simp only [forLoop, writeStep, List.mem_append, List.mem_cons, List.mem_singleton,
      List.not_mem_nil, or_false]
    by_cases h : i = n
    · rw [h]
      exact Or.inr (Or.inr rfl)
    · exact Or.inl (ih (by omega))

/-- A defined push does not wrap the count: if `_count + length` reached `2^32`, the
first write of the call would be outside the array. -/
theorem no_wrap_of_pushDefined (size : Nat) (s : CircularBuffer T) (src : Nat → T)
    (length : Nat) (hin : pushDefined size s src length = true) (hc : s._count < U32)
    (hl : length < U16) (hsize : size < U16) : s._count + length < U32 := by
  by_contra hw
  have h2 : U16 + U16 ≤ U32 := by decide
  have hpos : 0 < length := by omega
  have hall : ∀ a ∈ (pushRun size s src length).log, Access.inBounds size length a = true :=
    List.all_eq_true.mp hin
  have hmod : (s._count + length) % U32 = s._count + length - U32 := by
    rw [Nat.mod_eq_sub_mod (by omega)]
    exact Nat.mod_eq_of_lt (by omega)
  unfold pushRun at hall
  by_cases hb : (s._count + length) % U32 ≤ size
  · rw [if_pos hb] at hall
    have hw0 := hall _ (forLoop_append_log_mem src s._count length ⟨s.values, []⟩ 0 hpos)
    have hidx : (0 + s._count) % U32 = s._count := by
      rw [Nat.zero_add]
      exact Nat.mod_eq_of_lt hc
    rw [hidx] at hw0
    have hlt : s._count < size := of_decide_eq_true hw0
    omega
  · rw [if_neg hb] at hall
    rw [hmod] at hb
    have hhead : (size + U16 - length) % U16 = size + U16 - length :=
      Nat.mod_eq_of_lt (by omega)
    simp only [hhead] at hall
    have hw0 := hall _ (forLoop_write_log_mem src (size + U16 - length) length _ 0 hpos)
    have hlt : size + U16 - length + 0 < size := of_decide_eq_true hw0
    omega

/-- For counters and lengths within their types, a push is defined exactly when
`length ≤ size` and `_count + length` does not reach `2^32`. -/
theorem pushDefined_iff (size : Nat) (s : CircularBuffer T) (src : Nat → T)
    (length : Nat) (hc : s._count < U32) (hl : length < U16) (hsize : size < U16) :
    pushDefined size s src length = true ↔ length ≤ size ∧ s._count + length < U32 := by
  constructor
  · intro hin
    have hU := no_wrap_of_pushDefined size s src length hin hc hl hsize
    refine ⟨?_, hU⟩
    by_contra hgt
    have hpos : 0 < length := by omega
    have hall : ∀ a ∈ (pushRun size s src length).log, Access.inBounds size length a = true :=
      List.all_eq_true.mp hin
    have hb : ¬ (s._count + length) % U32 ≤ size := by
      rw [Nat.mod_eq_of_lt hU]
      omega
    have hhead : (size + U16 - length) % U16 = size + U16 - length :=
      Nat.mod_eq_of_lt (by omega)
    unfold pushRun at hall
    rw [if_neg hb] at hall
    simp only [hhead] at hall
    have hw0 := hall _ (forLoop_write_log_mem src (size + U16 - length) length _ 0 hpos)
    have hlt : size + U16 - length + 0 < size := of_decide_eq_true hw0
    omega
  · intro h
    exact pushDefined_of_le size s src length hsize h.1 h.2

/-- A push of one element in a state whose count is `2^32 - 1`: the accesses, the array
and the count afterwards. -/
theorem push_at_wrapped_count (size : Nat) (s : CircularBuffer T) (src : Nat → T)
    (hsize : size < U16) (hc : s._count = U32 - 1) :
    pushAccesses size s src 1 = [Access.readValues 0, Access.writeStorage (U32 - 1)]
      ∧ storage size (push size s src 1).1 = storage size s
      ∧ (push size s src 1).1._count = 0 := by
  have h2 : U16 + U16 ≤ U32 := by decide
  refine ⟨(pushRun_wrap size s src hc).2, ?_, ?_⟩
  · unfold storage
    apply List.map_congr_left
    intro i hi
    rw [List.mem_range] at hi
    rw [push_values, (pushRun_wrap size s src hc).1]
    simp only [store]
    rw [if_neg (by omega)]
  · rw [push_count, hc]
    decide

/-- Pushing `size + k < 2^32` elements one at a time onto a freshly constructed buffer
(`1 ≤ size`) leaves the array equal to the last `size` of them. -/
theorem single_pushes_keep_last (size k : Nat) (mem : Nat → T) (vs : List T)
    (h1 : 1 ≤ size) (hsize : size < U16) (hlen : vs.length = size + k)
    (hU : size + k < U32) :
    storage size (pushValues size (CircularBuffer.ctor mem) vs).1 = vs.drop k := by
  obtain ⟨_, hvals⟩ := pushValues_ctor size mem vs h1 hsize (by omega)
  apply List.ext_getElem?
  intro i
  rw [storage_getElem?, List.getElem?_drop]
  by_cases hi : i < size
  · rw [if_pos hi, ← hvals i (by omega) hi]
    congr 1
    omega
  · rw [if_neg hi]
    exact (List.getElem?_eq_none (by omega)).symm

/-- After `n < 2^32` single-element pushes onto a freshly constructed buffer the count is
`n`. -/
theorem pushValues_count (size : Nat) (mem : Nat → T) (vs : List T) (hn : vs.length < U32) :
    (pushValues size (CircularBuffer.ctor mem) vs).1._count = vs.length := by
  unfold pushValues
  rw [pushSeq_count _ _ _ (Nat.zero_lt_succ _), totalLength_singles]
  show (0 + vs.length) % U32 = vs.length
  rw [Nat.zero_add]
  exact Nat.mod_eq_of_lt hn

/-- The `2^32`-th single-element push onto a freshly constructed buffer: its accesses, and
the array, which it leaves as it was. -/
theorem pushValues_then_wrapped_push (size : Nat) (mem : Nat → T) (l : List T)
    (src : Nat → T) (hsize : size < U16) (hlen : l.length = U32 - 1) :
    pushAccesses size (pushValues size (CircularBuffer.ctor mem) l).1 src 1
        = [Access.readValues 0, Access.writeStorage (U32 - 1)]
      ∧ storage size (push size (pushValues size (CircularBuffer.ctor mem) l).1 src 1).1
          = storage size (pushValues size (CircularBuffer.ctor mem) l).1
      ∧ (push size (pushValues size (CircularBuffer.ctor mem) l).1 src 1).1._count = 0 := by
  have hl : l.length < U32 := by
    rw [hlen]
    decide
  exact push_at_wrapped_count size _ src hsize (by rw [pushValues_count size mem l hl, hlen])

end Defined

/-! ## Within the range of the count -/

section Range

variable {T : Type}

/-- After `n < 2^32` single-element pushes onto a freshly constructed buffer, `isFull()`
is false when `n < size` and true when `n ≥ size`. -/
theorem isFull_after_single_pushes (size : Nat) (mem : Nat → T) (vs : List T)
    (hn : vs.length < U32) :
    (vs.length < size → isFull size (pushValues size (CircularBuffer.ctor mem) vs).1 = false)
      ∧ (size ≤ vs.length
          → isFull size (pushValues size (CircularBuffer.ctor mem) vs).1 = true) := by
  unfold isFull
  rw [pushValues_count size mem vs hn]
  refine ⟨?_, ?_⟩
  · intro h
    exact decide_eq_false (by omega)
  · intro h
    exact decide_eq_true h

/-- Sliding-window step: on a full buffer, a push with `1 ≤ length ≤ size` and
`count + length < 2^32` leaves the old array without its first `length` elements,
followed by the `length` pushed values in order. -/
theorem sliding_window_step (size : Nat) (s : CircularBuffer T) (src : Nat → T)
    (length : Nat) (hsize : size < U16) (hfull : size ≤ s._count) (h1 : 1 ≤ length)
    (h2 : length ≤ size) (hU : s._count + length < U32) :
    storage size (push size s src length).1
        = (storage size s).drop length ++ (List.range length).map src
      ∧ (∀ i, i < size - length → (push size s src length).1.values i = s.values (i + length))
      ∧ (∀ j, j < length → (push size s src length).1.values (size - length + j) = src j) := by
  have hv := pushRun_slide size s src length hsize hfull h1 h2 hU
  have hlenS : (storage size s).length = size := by simp [storage]
  refine ⟨?_, ?_, ?_⟩
  · apply List.ext_getElem?
    intro i
    rw [storage_getElem?, push_values, hv]
    by_cases hi : i < size - length
    · have hc : ¬ (size - length ≤ i ∧ i < size) := by omega
      rw [if_pos (by omega), if_neg hc, if_pos hi,
        List.getElem?_append_left (by rw [List.length_drop, hlenS]; exact hi),
        List.getElem?_drop, storage_getElem?, if_pos (by omega), Nat.add_comm]
    · rw [List.getElem?_append_right (by rw [List.length_drop, hlenS]; omega),
        List.length_drop, hlenS, List.getElem?_map]
      by_cases hs : i < size
      · have hc : size - length ≤ i ∧ i < size := by omega
        rw [if_pos hs, if_pos hc, List.getElem?_range (by omega)]
        rfl
      · rw [if_neg hs, List.getElem?_eq_none (by rw [List.length_range]; omega)]
        rfl
  · intro i hi
    have hc : ¬ (size - length ≤ i ∧ i < size) := by omega
    rw [push_values, hv, if_neg hc, if_pos hi]
  · intro j hj
    have hc : size - length ≤ size - length + j ∧ size - length + j < size := by omega
    rw [push_values, hv, if_pos hc]
    congr 1
    omega

end Range

/-! ## The claims -/

section Claims

variable {T : Type}

/-- C1 (evaluation at the failing input). With `size = 5`, pushing `[1, 2]` and then
`[3, 4, 5, 6]` onto a fresh buffer whose cells hold `0` leaves `[0, 3, 4, 5, 6]` in the
array: the shift of line 85 is `size - _count = 3` instead of the overflow
`_count + length - size = 1`, so the retained element `2` is replaced by the never
written cell 3, while the last five elements of the push history are `[2, 3, 4, 5, 6]`. -/
theorem C1_underfull_push_loses_retained_element :
    storage 5 (pushSeq 5 (CircularBuffer.ctor (fun _ => 0))
        [(arr 0 [1, 2], 2), (arr 0 [3, 4, 5, 6], 4)]).1 = [0, 3, 4, 5, 6]
      ∧ (history [(arr 0 [1, 2], 2), (arr 0 [3, 4, 5, 6], 4)]).drop (6 - 5)
          = [2, 3, 4, 5, 6] := by
  decide

/-- C2 (evaluation at the failing input). `size = 1`; `2^32` single-element pushes onto a
fresh buffer: `2^32 - 1` pushes of the value 0, then one push of the value 1. The last
push finds `_count = 2^32 - 1`; in the test of line 79 `_count + 1` wraps to `0`, so the
branch commented "there's space for all items" is taken on a full buffer and line 81
writes at index `2^32 - 1`, outside the array. The array is left as it was, `[0]`, where
the claim gives the last pushed element, `[1]`. -/
theorem C2_push_at_wrapped_count_misses_array :
    storage 1 (pushValues 1 (CircularBuffer.ctor (fun _ => 0))
        (List.replicate (U32 - 1) 0 ++ [1])).1
      ≠ (List.replicate (U32 - 1) 0 ++ [1]).drop (U32 - 1)
      ∧ (List.replicate (U32 - 1) 0 ++ [1]).drop (U32 - 1) = [1]
      ∧ pushAccesses 1
          (pushValues 1 (CircularBuffer.ctor (fun _ => 0)) (List.replicate (U32 - 1) 0)).1
          (fun _ => 1) 1
        = [Access.readValues 0, Access.writeStorage (U32 - 1)]
      ∧ Access.inBounds 1 1 (Access.writeStorage (U32 - 1)) = false := by
  refine ⟨?_, List.drop_left' (List.length_replicate _ _), ?_, by decide⟩
  · rw [List.drop_left' (List.length_replicate _ _)]
    exact pushValues_wrap_one (List.replicate (U32 - 1) 0) (List.length_replicate _ _)
      (fun x hx => List.eq_of_mem_replicate hx)
  · exact (pushValues_then_wrapped_push 1 (fun _ => 0) (List.replicate (U32 - 1) 0)
      (fun _ => 1) (by decide) (List.length_replicate _ _)).1

/-- C3 (evaluation at the failing input). With `size = 2`, one push of the four elements
`[1, 2, 3, 4]` (`length = 2 * size`) onto a fresh buffer whose cells hold `0`:
`head = size - length` wraps to `65534` as a `uint16_t`, the four writes of line 92 go to
the indexes `65534, …, 65537`, all outside the array, and the array still holds `[0, 0]`
instead of the trailing elements `[3, 4]`. -/
theorem C3_oversized_push_writes_outside_array :
    pushAccesses 2 (CircularBuffer.ctor (fun _ => 0)) (arr 0 [1, 2, 3, 4]) 4
        = [Access.readValues 0, Access.writeStorage 65534,
           Access.readValues 1, Access.writeStorage 65535,
           Access.readValues 2, Access.writeStorage 65536,
           Access.readValues 3, Access.writeStorage 65537]
      ∧ storage 2 (push 2 (CircularBuffer.ctor (fun _ => 0)) (arr 0 [1, 2, 3, 4]) 4).1
          = [0, 0]
      ∧ ([1, 2, 3, 4] : List Nat).drop (4 - 2) = [3, 4] := by
  decide

/-- C5 (evaluation at the failing input). `size = 1`; `2^32` single-element pushes onto a
fresh buffer. The `2^32`-th push finds `_count = 2^32 - 1`, takes the append branch
(`_count + 1` wraps to `0`), writes at index `2^32 - 1`, outside the array, and
`_count += length` leaves `_count = 0`: `isFull()` is false after it, where the claim
gives true for every `n ≥ size`. -/
theorem C5_isFull_false_after_count_wrap :
    isFull 1 (pushValues 1 (CircularBuffer.ctor (fun _ => 0)) (List.replicate U32 0)).1
        = false
      ∧ (pushValues 1 (CircularBuffer.ctor (fun _ => 0)) (List.replicate U32 0)).1._count = 0
      ∧ pushAccesses 1
          (pushValues 1 (CircularBuffer.ctor (fun _ => 0)) (List.replicate (U32 - 1) 0)).1
          (fun _ => 0) 1
        = [Access.readValues 0, Access.writeStorage (U32 - 1)] := by
  have hcount :
      (pushValues 1 (CircularBuffer.ctor (fun _ => 0)) (List.replicate U32 0)).1._count = 0 := by
    unfold pushValues
    rw [pushSeq_count _ _ _ (by decide), totalLength_singles, List.length_replicate]
    decide
  refine ⟨?_, hcount, ?_⟩
  · unfold isFull
    rw [hcount]
    decide
  · exact (pushValues_then_wrapped_push 1 (fun _ => 0) (List.replicate (U32 - 1) 0)
      (fun _ => 0) (by decide) (List.length_replicate _ _)).1

/-- C7 (as stated, refuted). `size = 4`, batch size 2, fresh buffer: one push of four
elements raises the tally to `4 ≥ 2`, the detector subtracts the batch size once, and the
tally stored after the push is `2`, which is not below the batch size. -/
theorem C7_counterexample_tally_not_below_batch :
    (batch 2 (CircularBuffer.ctor (fun _ => 0)))._batchSize
        ≤ (batch 2 (CircularBuffer.ctor (fun _ => 0)))._batchCount + 4
      ∧ (push 4 (batch 2 (CircularBuffer.ctor (fun _ => 0))) (arr 0 [1, 2, 3, 4]) 4).1._batchCount
          = 2
      ∧ ¬ (push 4 (batch 2 (CircularBuffer.ctor (fun _ => 0)))
              (arr 0 [1, 2, 3, 4]) 4).1._batchCount
            < (batch 2 (CircularBuffer.ctor (fun _ => 0)))._batchSize := by
  decide

/-- C7 (amended). For every push that is defined (all its accesses are inside the arrays;
by `pushDefined_iff` this is `length ≤ size` and `c + length < 2^32`) and in which the detector applies its reduction (the `uint16_t` sum
`(t + length) mod 2^16` is at least the batch size `b`), the tally stored after the push
is `(t + length) mod 2^16 - b`; it lies in `[0, b)` exactly when
`(t + length) mod 2^16 < 2 * b`, which holds in particular when `t < b` and
`length ≤ b`. -/
theorem C7_tally_after_reduction (size : Nat) (s : CircularBuffer T) (src : Nat → T)
    (length : Nat) (hin : pushDefined size s src length = true)
    (h : s._batchSize ≤ (s._batchCount + length) % U16) :
    (push size s src length).1._batchCount = (s._batchCount + length) % U16 - s._batchSize
      ∧ ((push size s src length).1._batchCount < s._batchSize
          ↔ (s._batchCount + length) % U16 < 2 * s._batchSize)
      ∧ (s._batchCount < s._batchSize → length ≤ s._batchSize →
          (push size s src length).1._batchCount < s._batchSize) := by
  have _hdefined : pushDefined size s src length = true := hin
  have e : (push size s src length).1._batchCount
      = (s._batchCount + length) % U16 - s._batchSize := by
    rw [push_batchCount, if_pos h]
  refine ⟨e, ?_, ?_⟩
  · rw [e]
    omega
  · intro ht hl
    have hle : (s._batchCount + length) % U16 ≤ s._batchCount + length := Nat.mod_le _ _
    rw [e]
    omega

/-- Witness for C7: `size = 4`, batch size 2, fresh buffer, push of `[1, 2, 3]`: the call
is defined, the tally goes to 3 and is reduced to 1. -/
theorem C7_tally_after_reduction_witness :
    (push 4 (batch 2 (CircularBuffer.ctor (fun _ => 0))) (arr 0 [1, 2, 3]) 3).1._batchCount = 1
      ∧ (push 4 (batch 2 (CircularBuffer.ctor (fun _ => 0))) (arr 0 [1, 2, 3]) 3).1._batchCount
          < 2 :=
  ⟨(C7_tally_after_reduction 4 (batch 2 (CircularBuffer.ctor (fun _ => 0))) (arr 0 [1, 2, 3]) 3
      (by decide) (by decide)).1,
    ((C7_tally_after_reduction 4 (batch 2 (CircularBuffer.ctor (fun _ => 0))) (arr 0 [1, 2, 3]) 3
      (by decide) (by decide)).2.1).2 (by decide)⟩

/-- C8. For `size ≥ 1` and every buffer state: after `clear(false)` the count and the
tally are 0, `isFull()` is false, every cell of the array holds the value it held before
and the batch size is unchanged; after `clear(true)` the count and the tally are 0 and
each of the `size` cells holds the zero of `T`. -/
theorem C8_clear (size : Nat) [Zero T] (s : CircularBuffer T) (h1 : 1 ≤ size) :
    ((clear size false s)._count = 0
        ∧ (clear size false s)._batchCount = 0
        ∧ isFull size (clear size false s) = false
        ∧ (∀ i, (clear size false s).values i = s.values i)
        ∧ storage size (clear size false s) = storage size s
        ∧ (clear size false s)._batchSize = s._batchSize)
      ∧ ((clear size true s)._count = 0
        ∧ (clear size true s)._batchCount = 0
        ∧ (∀ i, i < size → (clear size true s).values i = 0)
        ∧ storage size (clear size true s) = List.replicate size 0) := by
  refine ⟨⟨rfl, rfl, ?_, fun _ => rfl, rfl, rfl⟩, ⟨rfl, rfl, ?_, ?_⟩⟩
  · show decide (0 ≥ size) = false
    exact decide_eq_false (by omega)
  · intro i hi
    show forLoop size (fun i m => store m i 0) s.values i = 0
    rw [forLoop_zero_values, if_pos hi]
  · apply List.ext_getElem?
    intro i
    rw [storage_getElem?, List.getElem?_replicate]
    by_cases hi : i < size
    · rw [if_pos hi, if_pos hi]
      show some (forLoop size (fun i m => store m i 0) s.values i) = some 0
      rw [forLoop_zero_values, if_pos hi]
    · rw [if_neg hi, if_neg hi]

/-- Witness for C8: `size = 3`, the buffer reached by pushing `1, 2, 3, 4`. -/
theorem C8_clear_witness :
    isFull 3 (clear 3 false (pushValues 3 (CircularBuffer.ctor (fun _ => 0)) [1, 2, 3, 4]).1)
        = false
      ∧ storage 3 (clear 3 false (pushValues 3 (CircularBuffer.ctor (fun _ => 0)) [1, 2, 3, 4]).1)
          = [2, 3, 4]
      ∧ storage 3 (clear 3 true (pushValues 3 (CircularBuffer.ctor (fun _ => 0)) [1, 2, 3, 4]).1)
          = [0, 0, 0] :=
  ⟨(C8_clear 3 (pushValues 3 (CircularBuffer.ctor (fun _ => 0)) [1, 2, 3, 4]).1
      (by decide)).1.2.2.1,
    by decide,
    (C8_clear 3 (pushValues 3 (CircularBuffer.ctor (fun _ => 0)) [1, 2, 3, 4]).1
      (by decide)).2.2.2.2⟩

/-- C9 (evaluation at the failing input). `size = 5`. Two buffers are filled by one push
of `[0, 0, 0, 7, 0]` and of `[0, 0, 0, 8, 0]`; they agree on every counter and differ in
cell 3. After `clear(false)` and the same pushes `[1, 2]` and `[3, 4, 5, 6]` (six
elements, each push of length at most `size`), the counters and the returned flags agree
but the arrays are `[7, 3, 4, 5, 6]` and `[8, 3, 4, 5, 6]`: the shift of line 85 copies
the stale cell 3 into cell 0 (the defect evaluated for C1). -/
theorem C9_stale_cell_reaches_window :
    storage 5 (pushSeq 5 (clear 5 false
        (push 5 (CircularBuffer.ctor (fun _ => 0)) (arr 0 [0, 0, 0, 7, 0]) 5).1)
        [(arr 0 [1, 2], 2), (arr 0 [3, 4, 5, 6], 4)]).1 = [7, 3, 4, 5, 6]
      ∧ storage 5 (pushSeq 5 (clear 5 false
        (push 5 (CircularBuffer.ctor (fun _ => 0)) (arr 0 [0, 0, 0, 8, 0]) 5).1)
        [(arr 0 [1, 2], 2), (arr 0 [3, 4, 5, 6], 4)]).1 = [8, 3, 4, 5, 6]
      ∧ (pushSeq 5 (clear 5 false
        (push 5 (CircularBuffer.ctor (fun _ => 0)) (arr 0 [0, 0, 0, 7, 0]) 5).1)
        [(arr 0 [1, 2], 2), (arr 0 [3, 4, 5, 6], 4)]).2
          = (pushSeq 5 (clear 5 false
        (push 5 (CircularBuffer.ctor (fun _ => 0)) (arr 0 [0, 0, 0, 8, 0]) 5).1)
        [(arr 0 [1, 2], 2), (arr 0 [3, 4, 5, 6], 4)]).2 := by
  decide

/-- C12 (evaluation at the failing input). `size = 2`; the full buffer reached by
`2^32 - 1` single-element pushes onto a fresh buffer, the last two being 5 and 6: the
array is `[5, 6]` and the count is `2^32 - 1 ≥ size`. For the push of the one element 7,
`_count + length` wraps to `0 ≤ size` in the test of line 79, the append branch is taken
instead of the shift branch, the write goes to index `2^32 - 1`, outside the array, and
the array stays `[5, 6]` where the sliding step gives `[6, 7]`. -/
theorem C12_push_at_wrapped_count_does_not_slide :
    storage 2 (push 2
        { values := arr 0 [5, 6], _i := 0, _batchSize := 1, _batchCount := 0,
          _count := 4294967295 } (arr 0 [7]) 1).1 = [5, 6]
      ∧ ([5, 6] : List Nat).drop 1 ++ [7] = [6, 7]
      ∧ pushAccesses 2
          { values := arr 0 [5, 6], _i := 0, _batchSize := 1, _batchCount := 0,
            _count := 4294967295 } (arr 0 [7]) 1
        = [Access.readValues 0, Access.writeStorage 4294967295]
      ∧ storage 2 (pushValues 2 (CircularBuffer.ctor (fun _ => 0))
          (List.replicate (U32 - 3) 0 ++ [5, 6])).1 = [5, 6]
      ∧ (pushValues 2 (CircularBuffer.ctor (fun _ => 0))
          (List.replicate (U32 - 3) 0 ++ [5, 6])).1._count = 4294967295 := by
  have hlen : (List.replicate (U32 - 3) (0 : Nat) ++ [5, 6]).length = 2 + (U32 - 3) := by
    rw [List.length_append, List.length_replicate, Nat.add_comm]
    rfl
  refine ⟨by decide, by decide, by decide, ?_, ?_⟩
  · rw [single_pushes_keep_last 2 (U32 - 3) (fun _ => 0) _ (by decide) (by decide) hlen
      (by decide)]
    exact List.drop_left' (List.length_replicate _ _)
  · rw [pushValues_count 2 (fun _ => 0) _ (by rw [hlen]; decide), hlen]
    decide

/-- C13. Append step: for every buffer state with count `c` and every push with
`c + length ≤ size`, afterwards `storage[c + j] = values[j]` for every `j < length`, every
other cell (index `< c` or `≥ c + length`) is unchanged, and the count is `c + length`. -/
theorem C13_append_step (size : Nat) (s : CircularBuffer T) (src : Nat → T) (length : Nat)
    (hsize : size < U16) (h : s._count + length ≤ size) :
    (∀ j, j < length → (push size s src length).1.values (s._count + j) = src j)
      ∧ (∀ i, i < s._count ∨ s._count + length ≤ i →
          (push size s src length).1.values i = s.values i)
      ∧ (push size s src length).1._count = s._count + length := by
  have hv := pushRun_append size s src length hsize h
  refine ⟨?_, ?_, ?_⟩
  · intro j hj
    have hc : s._count ≤ s._count + j ∧ s._count + j < s._count + length := by omega
    rw [push_values, hv, if_pos hc]
    congr 1
    omega
  · intro i hi
    have hc : ¬ (s._count ≤ i ∧ i < s._count + length) := by omega
    rw [push_values, hv, if_neg hc]
  · rw [push_count]
    have hlt : U16 ≤ U32 := by decide
    exact Nat.mod_eq_of_lt (by omega)

/-- Witness for C13: `size = 5`, after the pushes `1, 2` a push of `[3, 4]` sets cells 2
and 3 and the count becomes 4. -/
theorem C13_append_step_witness :
    storage 5 (push 5 (pushValues 5 (CircularBuffer.ctor (fun _ => 0)) [1, 2]).1
        (arr 0 [3, 4]) 2).1 = [1, 2, 3, 4, 0]
      ∧ (push 5 (pushValues 5 (CircularBuffer.ctor (fun _ => 0)) [1, 2]).1
          (arr 0 [3, 4]) 2).1._count
        = (pushValues 5 (CircularBuffer.ctor (fun _ => 0)) [1, 2]).1._count + 2 :=
  ⟨by decide,
    (C13_append_step 5 (pushValues 5 (CircularBuffer.ctor (fun _ => 0)) [1, 2]).1
      (arr 0 [3, 4]) 2 (by decide) (by decide)).2.2⟩

/-- C14. Warm-up and cadence for single pushes: on a freshly constructed buffer on which
the batch size `b` (`1 ≤ b`, a `uint16_t`) was set, the `n`-th single-element push, for
`n = vs.length + 1 < 2^32` (the pushes of `vs` came before it), returns true if and only
if `n ≥ size` and `b` divides `n`; and the tally after it is `n mod b`, so a batch boundary
crossed during the initial fill is consumed without a firing. -/
theorem C14_single_push_cadence (size b : Nat) (mem : Nat → T) (vs : List T) (a : T)
    (hb : 1 ≤ b) (hb16 : b < U16) (hn : vs.length + 1 < U32) :
    ((pushValue size (pushValues size (batch b (CircularBuffer.ctor mem)) vs).1 a).2 = true
        ↔ size ≤ vs.length + 1 ∧ b ∣ vs.length + 1)
      ∧ (pushValue size (pushValues size (batch b (CircularBuffer.ctor mem)) vs).1 a).1._batchCount
          = (vs.length + 1) % b := by
  obtain ⟨hC, hT, hB⟩ := pushValues_batch_ctor size b mem vs hb hb16 (by omega)
  have hr : vs.length % b < b := Nat.mod_lt _ (by omega)
  have e1 : (vs.length % b + 1) % U16 = vs.length % b + 1 := Nat.mod_eq_of_lt (by omega)
  have e2 : (vs.length + 1) % U32 = vs.length + 1 := Nat.mod_eq_of_lt hn
  unfold pushValue
  rw [push_ret, push_batchCount, hC, hT, hB, e1, e2, decide_eq_true_iff,
    Nat.dvd_iff_mod_eq_zero]
  by_cases h : b ≤ vs.length % b + 1
  · have hz := (succ_mod_step vs.length b hb).1 h
    rw [if_pos h, hz]
    refine ⟨⟨fun hh => ⟨hh.2, rfl⟩, fun hh => ⟨h, hh.1⟩⟩, by omega⟩
  · have hz := (succ_mod_step vs.length b hb).2 h
    rw [if_neg h, hz]
    refine ⟨⟨fun hh => absurd hh.1 h, fun hh => ?_⟩, rfl⟩
    omega

/-- Witness for C14: `size = 3`, `b = 2`. The flags of the first six single pushes are
false, false, false, true, false, true: the boundary at `n = 2` is consumed during the
fill, and the first firing is at `n = 4`, the first multiple of 2 that is at least 3. -/
theorem C14_single_push_cadence_witness :
    ((pushValue 3 (pushValues 3 (batch 2 (CircularBuffer.ctor (fun _ => 0))) [1, 2, 3]).1 4).2
        = true ↔ 3 ≤ 3 + 1 ∧ 2 ∣ 3 + 1)
      ∧ (pushValues 3 (batch 2 (CircularBuffer.ctor (fun _ => 0))) [1, 2, 3, 4, 5, 6]).2
          = [false, false, false, true, false, true] :=
  ⟨(C14_single_push_cadence 3 2 (fun _ => 0) [1, 2, 3] 4 (by decide) (by decide)
      (by decide)).1,
    by decide⟩

/-- C15 (evaluation at the failing input). `size = 1`; the buffer reached by `2^32 - 1`
single-element pushes onto a fresh buffer has count `2^32 - 1` (a count above `size`).
For a push of one element (`length ≤ size`), `_count + length` wraps to `0` in the test
of line 79, the append branch is taken and the write of line 81 goes to the index
`2^32 - 1`, which is not below `size`. -/
theorem C15_push_at_wrapped_count_writes_outside_array :
    pushAccesses 1
        { values := fun _ => 0, _i := 0, _batchSize := 1, _batchCount := 0,
          _count := 4294967295 } (arr 0 [7]) 1
      = [Access.readValues 0, Access.writeStorage 4294967295]
      ∧ Access.inBounds 1 1 (Access.writeStorage 4294967295) = false
      ∧ (pushValues 1 (CircularBuffer.ctor (fun _ => 0))
          (List.replicate (U32 - 1) 0)).1._count = 4294967295
      ∧ pushAccesses 1
          (pushValues 1 (CircularBuffer.ctor (fun _ => 0)) (List.replicate (U32 - 1) 0)).1
          (arr 0 [7]) 1
        = [Access.readValues 0, Access.writeStorage 4294967295] := by
  refine ⟨by decide, by decide, ?_, ?_⟩
  · rw [pushValues_count 1 (fun _ => 0) _ (by rw [List.length_replicate]; decide),
      List.length_replicate]
    decide
  · exact (pushValues_then_wrapped_push 1 (fun _ => 0) (List.replicate (U32 - 1) 0)
      (arr 0 [7]) (by decide) (List.length_replicate _ _)).1

/-- C16. A zero-length push is a no-op on the data: for every buffer state (whose count is
a `uint32_t` and whose tally is a `uint16_t`; the count may be below, equal to or above
`size`), `push(values, 0)` leaves every cell of the array and the count unchanged, and the
tally after it is `t - b` when `t ≥ b` and `t` otherwise: it changes only through the
detector's single subtraction of the batch size. -/
theorem C16_zero_length_push (size : Nat) (s : CircularBuffer T) (src : Nat → T)
    (hc : s._count < U32) (ht : s._batchCount < U16) :
    (∀ i, (push size s src 0).1.values i = s.values i)
      ∧ storage size (push size s src 0).1 = storage size s
      ∧ (push size s src 0).1._count = s._count
      ∧ (push size s src 0).1._batchSize = s._batchSize
      ∧ (push size s src 0).1._batchCount
          = (if s._batchSize ≤ s._batchCount then s._batchCount - s._batchSize
              else s._batchCount) := by
  have hv : ∀ i, (push size s src 0).1.values i = s.values i := by
    intro i
    rw [push_values]
    unfold pushRun
    by_cases hb : (s._count + 0) % U32 ≤ size
    · rw [if_pos hb]
      rfl
    · rw [if_neg hb]
      simp only [forLoop]
      rw [forLoop_shift_values]
      by_cases hfull : s._count ≥ size
      · simp [hfull]
      · exfalso
        apply hb
        rw [Nat.add_zero, Nat.mod_eq_of_lt hc]
        omega
  refine ⟨hv, ?_, ?_, push_batchSize _ _ _ _, ?_⟩
  · unfold storage
    exact List.map_congr_left (fun i _ => hv i)
  · rw [push_count, Nat.add_zero]
    exact Nat.mod_eq_of_lt hc
  · rw [push_batchCount, Nat.add_zero, Nat.mod_eq_of_lt ht]

/-- Witness for C16: `size = 2`, after the pushes `1, 2, 3` (count 3, above `size`) a
zero-length push leaves the array `[2, 3]` and the count. -/
theorem C16_zero_length_push_witness :
    storage 2 (push 2 (pushValues 2 (CircularBuffer.ctor (fun _ => 0)) [1, 2, 3]).1
        (arr 0 []) 0).1 = [2, 3]
      ∧ (push 2 (pushValues 2 (CircularBuffer.ctor (fun _ => 0)) [1, 2, 3]).1
          (arr 0 []) 0).1._count
        = (pushValues 2 (CircularBuffer.ctor (fun _ => 0)) [1, 2, 3]).1._count :=
  ⟨by decide,
    (C16_zero_length_push 2 (pushValues 2 (CircularBuffer.ctor (fun _ => 0)) [1, 2, 3]).1
      (arr 0 []) (by decide) (by decide)).2.2.1⟩

end Claims

end Eloquent.Commons

namespace Eloquent.EdgeImpulse.Impulse

/-! ## `Impulse::_argmax` -/

/-- Invariant of the loop of `_argmax`. `pre` holds the scores already seen, `y` is the
first index of their maximum `proba`; on scores that are non-negative and sum to 1 the
final `_y` is the first index of the maximum of all the scores. -/
theorem argmaxLoop_spec (rest : List ℚ) :
    ∀ (pre : List ℚ) (y : Nat) (proba : ℚ),
      pre[y]? = some proba →
      (∀ (j : Nat) (x : ℚ), pre[j]? = some x → x ≤ proba) →
      (∀ (j : Nat) (x : ℚ), j < y → pre[j]? = some x → x < proba) →
      (∀ x ∈ pre ++ rest, 0 ≤ x) → (pre ++ rest).sum = 1 →
      ∃ m, (pre ++ rest)[argmaxLoop rest pre.length y proba]? = some m
        ∧ (∀ (j : Nat) (x : ℚ), (pre ++ rest)[j]? = some x → x ≤ m)
        ∧ (∀ (j : Nat) (x : ℚ), j < argmaxLoop rest pre.length y proba → (pre ++ rest)[j]? = some x → x < m) := by
  induction rest with
  | nil =>
    intro pre y proba hy hmax hfirst _ _
    simp only [List.append_nil, argmaxLoop]
    exact ⟨proba, hy, hmax, hfirst⟩
  | cons p rest ih =>
    intro pre y proba hy hmax hfirst hnn hsum
    have hylt : y < pre.length := (List.getElem?_eq_some.1 hy).1
    have eqL : pre ++ p :: rest = (pre ++ [p]) ++ rest := by simp
    have hlen : (pre ++ [p]).length = pre.length + 1 := by simp
    -- the state after the body of the loop
    have step : ∃ y1 proba1, y1 = (if p > proba then pre.length else y)
        ∧ proba1 = (if p > proba then p else proba)
        ∧ (pre ++ [p])[y1]? = some proba1
        ∧ (∀ (j : Nat) (x : ℚ), (pre ++ [p])[j]? = some x → x ≤ proba1)
        ∧ (∀ (j : Nat) (x : ℚ), j < y1 → (pre ++ [p])[j]? = some x → x < proba1) := by
      by_cases hp : p > proba
      · refine ⟨pre.length, p, by rw [if_pos hp], by rw [if_pos hp],
          List.getElem?_concat_length pre p, ?_, ?_⟩
        · intro j x hj
          by_cases hjl : j < pre.length
          · rw [List.getElem?_append_left hjl] at hj
            exact le_of_lt (lt_of_le_of_lt (hmax j x hj) hp)
          · have hjlt := (List.getElem?_eq_some.1 hj).1
            have hje : j = pre.length := by omega
            rw [hje, List.getElem?_concat_length] at hj
            exact le_of_eq (Option.some.inj hj).symm
        · intro j x hjl hj
          rw [List.getElem?_append_left hjl] at hj
          exact lt_of_le_of_lt (hmax j x hj) hp
      · refine ⟨y, proba, by rw [if_neg hp], by rw [if_neg hp], ?_, ?_, ?_⟩
        · rw [List.getElem?_append_left hylt]
          exact hy
        · intro j x hj
          by_cases hjl : j < pre.length
          · rw [List.getElem?_append_left hjl] at hj
            exact hmax j x hj
          · have hjlt := (List.getElem?_eq_some.1 hj).1
            have hje : j = pre.length := by omega
            rw [hje, List.getElem?_concat_length] at hj
            rw [← Option.some.inj hj]
            exact not_lt.1 hp
        · intro j x hjy hj
          rw [List.getElem?_append_left (by omega)] at hj
          exact hfirst j x hjy hj
    obtain ⟨y1, proba1, hy1, hp1, hget, hmax1, hfirst1⟩ := step
    have hy1lt : y1 < (pre ++ [p]).length := (List.getElem?_eq_some.1 hget).1
    simp only [argmaxLoop]
    rw [← hy1, ← hp1, eqL]
    by_cases hstop : proba1 ≥ 1 / 2
    · rw [if_pos hstop]
      refine ⟨proba1, ?_, ?_, ?_⟩
      · rw [List.getElem?_append_left hy1lt]
        exact hget
      · intro j x hj
        by_cases hjl : j < (pre ++ [p]).length
        · rw [List.getElem?_append_left hjl] at hj
          exact hmax1 j x hj
        · rw [List.getElem?_append_right (by omega)] at hj
          have hxmem : x ∈ rest := List.getElem?_mem hj
          rw [eqL] at hnn hsum
          have hx : x ≤ rest.sum :=
            List.single_le_sum (fun z hz => hnn z (List.mem_append_right _ hz)) x hxmem
          have hb : proba1 ≤ (pre ++ [p]).sum :=
            List.single_le_sum (fun z hz => hnn z (List.mem_append_left _ hz)) proba1
              (List.getElem?_mem hget)
          rw [List.sum_append] at hsum
          linarith
      · intro j x hjl hj
        rw [List.getElem?_append_left (by omega)] at hj
        exact hfirst1 j x hjl hj
    · rw [if_neg hstop, ← hlen]
      rw [eqL] at hnn hsum
      exact ih (pre ++ [p]) y1 proba1 hget hmax1 hfirst1 hnn hsum

/-- C17. Early-exit argmax: for every non-empty list of class scores that are non-negative
and sum to 1 (exact rationals), `_argmax` leaves in `_y` the first index holding the
maximum score: the score `m` at that index is at least every score, and every score at
an earlier index is strictly below `m`; this although the loop stops as soon as the
running best score is at least `1/2`. -/
theorem C17_argmax_first_maximum (scores : List ℚ) (hne : scores ≠ [])
    (hnn : ∀ x ∈ scores, 0 ≤ x) (hsum : scores.sum = 1) :
    ∃ m, scores[_argmax scores]? = some m
      ∧ (∀ x ∈ scores, x ≤ m)
      ∧ (∀ (j : Nat) (x : ℚ), j < _argmax scores → scores[j]? = some x → x < m) := by
  cases scores with
  | nil => exact absurd rfl hne
  | cons h t =>
    have key := argmaxLoop_spec t [h] 0 h rfl
      (by
        intro j x hj
        have hjlt := (List.getElem?_eq_some.1 hj).1
        have hj0 : j = 0 := by
          simp only [List.length_singleton] at hjlt
          omega
        rw [hj0] at hj
        exact le_of_eq (Option.some.inj hj).symm)
      (by
        intro j x hj0
        exact absurd hj0 (Nat.not_lt_zero j))
      hnn hsum
    obtain ⟨m, hm, hmax, hfirst⟩ := key
    refine ⟨m, hm, ?_, hfirst⟩
    intro x hx
    obtain ⟨n, hn⟩ := List.mem_iff_getElem?.1 hx
    exact hmax n x hn

/-- Witness for C17: the scores `1/4, 1/2, 1/4`. The loop stops at index 1, before it reads
index 2, and `_y` is 1. -/
theorem C17_argmax_first_maximum_witness :
    _argmax [1 / 4, 1 / 2, 1 / 4] = 1
      ∧ ∃ m, ([1 / 4, 1 / 2, 1 / 4] : List ℚ)[_argmax [1 / 4, 1 / 2, 1 / 4]]? = some m
          ∧ (∀ x ∈ ([1 / 4, 1 / 2, 1 / 4] : List ℚ), x ≤ m)
          ∧ (∀ (j : Nat) (x : ℚ), j < _argmax [1 / 4, 1 / 2, 1 / 4] →
              ([1 / 4, 1 / 2, 1 / 4] : List ℚ)[j]? = some x → x < m) :=
  ⟨by norm_num [_argmax, argmaxLoop],
    C17_argmax_first_maximum [1 / 4, 1 / 2, 1 / 4] (by simp)
      (by
        intro x hx
        simp only [List.mem_cons, List.mem_singleton, List.not_mem_nil, or_false] at hx
        rcases hx with h | h | h <;> rw [h] <;> norm_num)
      (by norm_num)⟩

end Eloquent.EdgeImpulse.Impulse
